import Mathlib

/-!
Shallow embedding of the `ngx-scripts` command-line helper (`src/index.js`).

The CLI is thin glue around three external collaborators that the
specification treats as opaque: the process environment, the filesystem and
the child-process execution facility.  A `World` value fixes the behaviour of
those collaborators for one invocation (whether each filesystem operation
succeeds, what the environment lookup returns, what the build-configuration
and manifest files contain).  Each command handler is embedded as a pure
function from the parsed options and a `World` to the ordered list of
observable effects (`Ev`) it performs together with how the process
terminates (`ExitKind`).

Conventions of the embedding:
* `chalk` colouring is modelled as the identity (its behaviour on a non-TTY
  stream), so logged and printed strings appear uncoloured.
* `this._exit(msg)` (a `console.error` followed by `process.exit(1)`) is
  modelled as a final `Ev.errorExit msg` event with `ExitKind.exited 1`;
  nothing after it executes, exactly as `process.exit` terminates the
  process.
* an exception that no handler catches (possible only for
  `fs.removeSync(options.path)` in `_clean`) is `ExitKind.uncaught msg`:
  node prints the error and terminates with exit code 1, but not through
  `_exit`.
* `JSON.stringify` of the object built by `_env2json` drops every property
  whose value is `undefined`; the written JSON object is modelled
  structurally as its ordered list of string entries.
* `minimist` is the opaque argument-parsing facility: handlers receive the
  parsed `Options` record directly, and the concrete inputs used below spell
  out the record minimist produces for the corresponding command line.
-/

namespace NgxScripts

/-- JSON values, used for the `ionic-angular` manifest handled by
`unpin-ionic-dependencies`. -/
inductive JVal : Type where
  | null : JVal
  | bool (b : Bool) : JVal
  | num (n : Int) : JVal
  | str (s : String) : JVal
  | arr (elems : List JVal) : JVal
  | obj (fields : List (String × JVal)) : JVal

/-- How the process terminates after a handler runs. -/
inductive ExitKind : Type where
  | normal : ExitKind
  | exited (code : Nat) : ExitKind
  | uncaught (msg : String) : ExitKind
  deriving DecidableEq

/-- Observable effects performed by the handlers, in program order. -/
inductive Ev : Type where
  | spawn (cmd : String) (args : List String) : Ev
  | execCopy (src dest : String) : Ev
  | ensureDir (p : String) : Ev
  | writeJson (p : String) (entries : List (String × String)) : Ev
  | writeManifest (p : String) (pretty : Bool) (fields : List (String × JVal)) : Ev
  | removed (p : String) : Ev
  | log (msg : String) : Ev
  | errorExit (msg : String) : Ev

/-- The options record produced by the argument-parsing facility
(`minimist` with booleans `help fast dev device emulate debug release yarn
cordova dist`, strings `o copy env path`, alias `e` for `env`).
`positional` is `options._`.  A string option that was not given is `none`;
one given with an empty value is `some ""` (which is falsy in JS). -/
structure Options : Type where
  help : Bool := false
  fast : Bool := false
  dev : Bool := false
  device : Bool := false
  emulate : Bool := false
  debug : Bool := false
  release : Bool := false
  yarn : Bool := false
  cordova : Bool := false
  dist : Bool := false
  o : Option String := none
  copy : Option String := none
  env : Option String := none
  path : Option String := none
  positional : List String := []

/-- The opaque external collaborators: process environment, filesystem and
shell, fixed for one invocation. -/
structure World : Type where
  /-- `process.env` lookup. -/
  env : String → Option String
  /-- whether `fs.writeFileSync` at a path succeeds. -/
  writeOk : String → Bool
  /-- error message of a failing `fs.writeFileSync`. -/
  writeErr : String → String
  /-- whether `fs.ensureDirSync` at a path succeeds. -/
  ensureDirOk : String → Bool
  /-- error message of a failing `fs.ensureDirSync`. -/
  ensureDirErr : String → String
  /-- whether the shell copy command (`cp -Rf src dest` resp.
  `xcopy /S /Y src dest`) run by `_copy` exits with status 0, i.e. the glob
  matched and the copy succeeded. -/
  shellCopyOk : String → String → Bool
  /-- whether `fs.removeSync` at a path succeeds. -/
  removeOk : String → Bool
  /-- error message of a failing `fs.removeSync`. -/
  removeErr : String → String
  /-- the `apps[].outDir` fields of `.angular-cli.json`; `none` when
  `require` of that file throws. -/
  angularConfig : Option (List String)
  /-- error message of a failing `require` of `.angular-cli.json`. -/
  angularErr : String
  /-- the parsed `node_modules/ionic-angular/package.json`; `none` when
  `require` of it throws. -/
  ionicPkg : Option (List (String × JVal))
  /-- error message of a failing `require` of the ionic manifest. -/
  ionicErr : String

/-- JS truthiness of a string-valued option: `undefined` and the empty
string are falsy. -/
def strTruthy : Option String → Bool
  | none => false
  | some s => s != ""

/-- JS object property assignment `obj[k] = v` on an ordered field list: an
existing key keeps its position and gets the new value, a new key is
appended. -/
def assignField {α : Type} (obj : List (String × α)) (k : String) (v : α) :
    List (String × α) :=
  if k ∈ obj.map Prod.fst then
    obj.map (fun kv => if kv.1 = k then (kv.1, v) else kv)
  else
    obj ++ [(k, v)]

/-- First-match lookup of a key in an ordered field list (JS object property
read). -/
def jlookup {α : Type} (obj : List (String × α)) (k : String) : Option α :=
  match obj with
  | [] => none
  | kv :: rest => if kv.1 = k then some kv.2 else jlookup rest k

/-- Keys of an ordered field list, in order. -/
def keysOf {α : Type} (obj : List (String × α)) : List String :=
  obj.map Prod.fst

/-- The object built by `_env2json`'s reduce:
`vars.reduce((env, v) => { env[v] = process.env[v]; return env; }, {})`.
A variable that is unset gets the property value `undefined` (`none`). -/
def envReduce (env : String → Option String) (vars : List String) :
    List (String × Option String) :=
  vars.foldl (fun obj v => assignField obj v (env v)) []

/-- `JSON.stringify` on an object whose property values are strings or
`undefined`: properties with value `undefined` are omitted. -/
def stringifyEntries (obj : List (String × Option String)) :
    List (String × String) :=
  obj.filterMap (fun kv => match kv.2 with
    | some s => some (kv.1, s)
    | none => none)

/-- `NgxScriptsCli._env2json(vars, outputFile)` (src/index.js:80-94).
Empty `vars` exits through `_exit` before anything is written; otherwise the
serialized object is written, and a failing write exits through `_exit`. -/
def env2json (w : World) (vars : List String)
    (outputFile : String := "src/environments/.env.json") :
    List Ev × ExitKind :=
  if vars = [] then
    ([Ev.errorExit "Missing arguments\n"], ExitKind.exited 1)
  else
    let entries := stringifyEntries (envReduce w.env vars)
    if w.writeOk outputFile then
      ([Ev.writeJson outputFile entries], ExitKind.normal)
    else
      ([Ev.errorExit ("Error writing file: " ++ w.writeErr outputFile)],
        ExitKind.exited 1)

/-- `NgxScriptsCli._cordova(options)` (src/index.js:96-134).
The build pre-step is skipped under `--fast`; the packaging tool is spawned
with the positionals after the command name plus `--no-telemetry` and the
four pass-through flags; the copy step is guarded by
`options._['0'] === 'build' && options.copy`.  Inside it
`copied = copied || this._copy(...)` short-circuits, so the iOS copy is
attempted only when the Android copy failed. -/
def cordovaCmd (o : Options) (w : World) : List Ev × ExitKind :=
  let buildEvs : List Ev :=
    if o.fast then []
    else
      let buildOptions := ["build", "--"]
        ++ (if o.dev then ["--dev"] else [])
        ++ (if strTruthy o.env then ["--env", o.env.getD ""] else [])
      [Ev.spawn (if o.yarn then "yarn" else "npm run") buildOptions]
  let cordovaArgs := o.positional.drop 1 ++ ["--no-telemetry"]
    ++ (if o.device then ["--device"] else [])
    ++ (if o.emulate then ["--emulate"] else [])
    ++ (if o.debug then ["--debug"] else [])
    ++ (if o.release then ["--release"] else [])
  let evs := buildEvs ++ [Ev.spawn "cordova" cordovaArgs]
  if o.positional.get? 0 = some "build" ∧ strTruthy o.copy = true then
    let dest := o.copy.getD ""
    if w.ensureDirOk dest then
      let androidPath := "platforms/android/build/outputs/apk/*-"
        ++ (if o.release then "release" else "debug") ++ ".apk"
      let iosPath := "platforms/ios/build/device/*.ipa"
      if w.shellCopyOk androidPath dest then
        (evs ++ [Ev.ensureDir dest, Ev.execCopy androidPath dest,
          Ev.log ("Apps copied to " ++ dest ++ " folder")], ExitKind.normal)
      else if w.shellCopyOk iosPath dest then
        (evs ++ [Ev.ensureDir dest, Ev.execCopy androidPath dest,
          Ev.execCopy iosPath dest,
          Ev.log ("Apps copied to " ++ dest ++ " folder")], ExitKind.normal)
      else
        (evs ++ [Ev.ensureDir dest, Ev.execCopy androidPath dest,
          Ev.execCopy iosPath dest,
          Ev.errorExit "Error during apps copy: No app builds found"],
          ExitKind.exited 1)
    else
      (evs ++ [Ev.errorExit ("Error during apps copy: "
        ++ w.ensureDirErr dest)], ExitKind.exited 1)
  else
    (evs, ExitKind.normal)

/-- A sequence of `NgxScriptsCli._remove` calls (src/index.js:168-175): a
successful `fs.removeSync` is logged and the next removal runs; a failing
one prints the error and exits, attempting nothing further.  The returned
flag is whether the whole sequence survived. -/
def runRemoves (w : World) : List String → List Ev × Bool
  | [] => ([], true)
  | p :: ps =>
    if w.removeOk p then
      let r := runRemoves w ps
      (Ev.removed p :: Ev.log ("Removed " ++ p) :: r.1, r.2)
    else
      ([Ev.errorExit ("Error while removing " ++ p ++ ": " ++ w.removeErr p)],
        false)

/-- The final step of `_clean` (src/index.js:163-165): a bare
`fs.removeSync(options.path)`, not routed through `_remove`, so a success is
not logged and a failure escapes as an unhandled exception. -/
def pathStep (acc : List Ev) (o : Options) (w : World) : List Ev × ExitKind :=
  match o.path with
  | some p =>
    if p = "" then (acc, ExitKind.normal)
    else if w.removeOk p then (acc ++ [Ev.removed p], ExitKind.normal)
    else (acc, ExitKind.uncaught (w.removeErr p))
  | none => (acc, ExitKind.normal)

/-- The part of `_clean` after the cordova scope: `s1` is the outcome of the
cordova-scope removals (its events and whether the command is still alive)
and `dd` whether the dist scope runs.  The dist scope reads
`.angular-cli.json` (exiting through `_exit` on failure) and removes every
`apps[].outDir`; last, the path scope removes `options.path` directly. -/
def cleanRest (o : Options) (w : World) (s1 : List Ev × Bool) (dd : Bool) :
    List Ev × ExitKind :=
  if s1.2 then
    if dd then
      match w.angularConfig with
      | none =>
        (s1.1 ++ [Ev.errorExit ("Error reading .angular-cli.json: "
          ++ w.angularErr)], ExitKind.exited 1)
      | some dirs =>
        let s2 := runRemoves w dirs
        if s2.2 then pathStep (s1.1 ++ s2.1) o w
        else (s1.1 ++ s2.1, ExitKind.exited 1)
    else pathStep s1.1 o w
  else (s1.1, ExitKind.exited 1)

/-- `NgxScriptsCli._clean(options)` (src/index.js:145-166).  When none of
`--cordova`, `--dist`, `--path` is truthy, both `cordova` and `dist` default
to true.  The cordova scope removes `platforms` then `plugins`, then
`cleanRest` performs the dist and path scopes. -/
def clean (o : Options) (w : World) : List Ev × ExitKind :=
  let defaulted := !o.cordova && !o.dist && !(strTruthy o.path)
  cleanRest o w
    (if o.cordova || defaulted then runRemoves w ["platforms", "plugins"]
     else ([], true))
    (o.dist || defaulted)

/-- The numeric process exit code: `_exit` passes its `code` argument
(default 1) to `process.exit`, an uncaught exception makes node exit with
code 1, and a normal return exits 0. -/
def exitCode : ExitKind → Nat
  | ExitKind.normal => 0
  | ExitKind.exited c => c
  | ExitKind.uncaught _ => 1

/-- The removals `_clean` schedules through `_remove` (the managed ones),
in order: the cordova scope's `platforms` and `plugins`, then the dist
scope's `apps[].outDir` list (empty when the scope is off or the
build-configuration file cannot be read). -/
def managedSchedule (o : Options) (w : World) : List String :=
  let defaulted := !o.cordova && !o.dist && !(strTruthy o.path)
  (if o.cordova || defaulted then ["platforms", "plugins"] else []) ++
  (if o.dist || defaulted then w.angularConfig.getD [] else [])

/-- The event trace of a sequence of successful `_remove` calls: each
removal immediately followed by its log line. -/
def removeLogEvents : List String → List Ev
  | [] => []
  | p :: ps => Ev.removed p :: Ev.log ("Removed " ++ p) :: removeLogEvents ps

/-- Path of the manifest rewritten by `unpin-ionic-dependencies`. -/
def ionicPkgPath : String := "node_modules/ionic-angular/package.json"

/-- `NgxScriptsCli._unpinIonicDependencies()` (src/index.js:177-191).
The manifest is loaded (`require`), its `peerDependencies` field is set to
the empty object, and it is written back to the same path with
`JSON.stringify(pkg, null, 2)` (pretty-printed, recorded as the `pretty`
flag of the write event). -/
def unpinIonicDependencies (w : World) : List Ev × ExitKind :=
  match w.ionicPkg with
  | none =>
    ([Ev.errorExit ("Error with ionic package: " ++ w.ionicErr)],
      ExitKind.exited 1)
  | some pkg =>
    let pkg2 := assignField pkg "peerDependencies" (JVal.obj [])
    if w.writeOk ionicPkgPath then
      ([Ev.writeManifest ionicPkgPath true pkg2], ExitKind.normal)
    else
      ([Ev.errorExit ("Error writing file: " ++ w.writeErr ionicPkgPath)],
        ExitKind.exited 1)

/-- Usage banner (the exact text of the `help` template literal is opaque
formatting and irrelevant to the claims). -/
def helpText : String := "Usage ngx-scripts [command] [options]\n"

/-- `NgxScriptsCli.run()` (src/index.js:62-78): dispatch on `--help` and on
the first raw argument.  `_env2json` receives `options._.slice(1)` and
`options.o` (the JS default parameter applies only when `-o` was absent,
i.e. `undefined`). -/
def run (args : List String) (o : Options) (w : World) : List Ev × ExitKind :=
  if o.help then
    ([Ev.log "ascii-logo", Ev.errorExit (helpText ++ "detailed-help")],
      ExitKind.exited 1)
  else
    match args.get? 0 with
    | some "env2json" =>
      env2json w (o.positional.drop 1) (o.o.getD "src/environments/.env.json")
    | some "cordova" => cordovaCmd o w
    | some "clean" => clean o w
    | some "unpin-ionic-dependencies" => unpinIonicDependencies w
    | _ =>
      ([Ev.log "ascii-logo",
        Ev.errorExit (helpText ++ "Use --help for more info.\n")],
        ExitKind.exited 1)

/-- Commands of the spawned external processes, in order. -/
def spawnCmds (tr : List Ev) : List String :=
  tr.filterMap fun e => match e with
    | Ev.spawn c _ => some c
    | _ => none

/-- Paths successfully removed, in order. -/
def removedPaths (tr : List Ev) : List String :=
  tr.filterMap fun e => match e with
    | Ev.removed p => some p
    | _ => none

/-- Messages logged to standard output, in order. -/
def logsOf (tr : List Ev) : List String :=
  tr.filterMap fun e => match e with
    | Ev.log s => some s
    | _ => none

/-- Messages printed by `_exit` before terminating, in order. -/
def errorExitsOf (tr : List Ev) : List String :=
  tr.filterMap fun e => match e with
    | Ev.errorExit s => some s
    | _ => none

/-- Entries of all JSON objects written by `env2json`, concatenated. -/
def writtenEntries (tr : List Ev) : List (String × String) :=
  (tr.filterMap fun e => match e with
    | Ev.writeJson _ es => some es
    | _ => none).flatten

/-- Shell copy commands executed, as (source pattern, destination) pairs. -/
def execCopies (tr : List Ev) : List (String × String) :=
  tr.filterMap fun e => match e with
    | Ev.execCopy s d => some (s, d)
    | _ => none

/-- A small concrete `ionic-angular` manifest used in concrete worlds. -/
def ionicPkgFields : List (String × JVal) :=
  [("name", JVal.str "ionic-angular"),
   ("version", JVal.str "3.9.2"),
   ("peerDependencies", JVal.obj [("rxjs", JVal.str "5.5.2")])]

/-- A world where every external operation succeeds, with a one-variable
environment, one configured dist directory and a small ionic manifest. -/
def wAll : World where
  env := fun v => if v = "HOME" then some "/root" else none
  writeOk := fun _ => true
  writeErr := fun _ => "EACCES"
  ensureDirOk := fun _ => true
  ensureDirErr := fun _ => "EACCES"
  shellCopyOk := fun _ _ => true
  removeOk := fun _ => true
  removeErr := fun _ => "EACCES"
  angularConfig := some ["dist"]
  angularErr := "ENOENT"
  ionicPkg := some ionicPkgFields
  ionicErr := "ENOENT"

/-- `wAll` with every `fs.removeSync` failing. -/
def wRemoveFail : World :=
  { wAll with removeOk := fun _ => false }

/-- `wAll` with an empty process environment. -/
def wNoEnv : World :=
  { wAll with env := fun _ => none }

/-- `wAll` with no build artifact matching either copy pattern (every shell
copy command fails). -/
def wNoArtifacts : World :=
  { wAll with shellCopyOk := fun _ _ => false }

/-- The options minimist produces for the command line
`ngx-scripts cordova build --copy dist`. -/
def oCordovaBuildCopy : Options :=
  { positional := ["cordova", "build"], copy := some "dist" }

/-! ### Association-list lemmas for `assignField`, `jlookup`, `keysOf` -/

theorem mem_keysOf {α : Type} {obj : List (String × α)} {a : String} :
    a ∈ keysOf obj ↔ ∃ v, (a, v) ∈ obj := by
  constructor
  · intro h
    rcases List.mem_map.mp h with ⟨⟨x, y⟩, hm, rfl⟩
    exact ⟨y, hm⟩
  · rintro ⟨v, hv⟩
    exact List.mem_map.mpr ⟨(a, v), hv, rfl⟩

theorem keysOf_append {α : Type} (l1 l2 : List (String × α)) :
    keysOf (l1 ++ l2) = keysOf l1 ++ keysOf l2 :=
  List.map_append _ _ _

theorem keysOf_map_update {α : Type} (obj : List (String × α)) (k : String)
    (v : α) :
    keysOf (obj.map (fun kv => if kv.1 = k then (kv.1, v) else kv)) =
      keysOf obj := by
  induction obj with
  | nil => rfl
  | cons kv rest ih =>
    by_cases h : kv.1 = k <;>
      simp only [keysOf, List.map_cons, h, if_pos, if_neg, ite_true,
        ite_false] at ih ⊢ <;>
      simp_all [keysOf]

theorem mem_keysOf_assignField {α : Type} (obj : List (String × α))
    (k a : String) (v : α) :
    a ∈ keysOf (assignField obj k v) ↔ a ∈ keysOf obj ∨ a = k := by
  unfold assignField
  by_cases ha : k ∈ obj.map Prod.fst
  · rw [if_pos ha, keysOf_map_update]
    constructor
    · exact Or.inl
    · rintro (h1 | rfl)
      · exact h1
      · exact ha
  · rw [if_neg ha, keysOf_append]
    simp [keysOf]

theorem nodup_keysOf_assignField {α : Type} (obj : List (String × α))
    (k : String) (v : α) (h : (keysOf obj).Nodup) :
    (keysOf (assignField obj k v)).Nodup := by
  unfold assignField
  by_cases ha : k ∈ obj.map Prod.fst
  · rw [if_pos ha, keysOf_map_update]
    exact h
  · rw [if_neg ha, keysOf_append]
    simp only [keysOf, List.map_cons, List.map_nil, List.nodup_append]
    refine ⟨h, List.nodup_singleton k, ?_⟩
    intro a hmem
    simp only [List.mem_singleton]
    intro rfl1
    subst rfl1
    exact ha hmem

theorem assignField_snd {α : Type} (f : String → α)
    (obj : List (String × α)) (k : String)
    (h : ∀ p ∈ obj, p.2 = f p.1) :
    ∀ p ∈ assignField obj k (f k), p.2 = f p.1 := by
  unfold assignField
  by_cases ha : k ∈ obj.map Prod.fst
  · rw [if_pos ha]
    intro p hp
    rcases List.mem_map.mp hp with ⟨q, hq, rfl⟩
    by_cases hqk : q.1 = k
    · simp [hqk]
    · simp only [hqk, ite_false]
      exact h q hq
  · rw [if_neg ha]
    intro p hp
    rcases List.mem_append.mp hp with h1 | h1
    · exact h p h1
    · simp only [List.mem_singleton] at h1
      subst h1
      rfl

theorem jlookup_eq_none_iff {α : Type} (obj : List (String × α)) (k : String) :
    jlookup obj k = none ↔ k ∉ obj.map Prod.fst := by
  induction obj with
  | nil => simp [jlookup]
  | cons kv rest ih =>
    by_cases h : kv.1 = k
    · constructor
      · intro hn
        exact absurd hn (by simp [jlookup, h])
      · intro hn
        exact absurd (by simp [h] : k ∈ (kv :: rest).map Prod.fst) hn
    · constructor
      · intro hn
        have h1 : jlookup rest k = none := by
          simpa [jlookup, h] using hn
        have h2 := (ih.mp h1)
        simp only [List.map_cons, List.mem_cons]
        rintro (he | he)
        · exact h (he.symm)
        · exact h2 he
      · intro hn
        have h2 : k ∉ rest.map Prod.fst := by
          simp only [List.map_cons, List.mem_cons] at hn
          exact fun hmem => hn (Or.inr hmem)
        simpa [jlookup, h] using ih.mpr h2

theorem jlookup_append {α : Type} (l1 l2 : List (String × α)) (a : String) :
    jlookup (l1 ++ l2) a = (jlookup l1 a).or (jlookup l2 a) := by
  induction l1 with
  | nil => simp [jlookup]
  | cons kv rest ih =>
    by_cases h : kv.1 = a <;> simp [jlookup, h, ih]

theorem jlookup_map_update_self {α : Type} (obj : List (String × α))
    (k : String) (v : α) :
    jlookup (obj.map (fun kv => if kv.1 = k then (kv.1, v) else kv)) k =
      (jlookup obj k).map (fun _ => v) := by
  induction obj with
  | nil => rfl
  | cons kv rest ih =>
    by_cases h : kv.1 = k
    · rw [List.map_cons, if_pos h]
      simp [jlookup, h]
    · rw [List.map_cons, if_neg h]
      show (if kv.1 = k then some kv.2 else _) = _
      rw [if_neg h, ih]
      show _ = Option.map _ (if kv.1 = k then some kv.2 else jlookup rest k)
      rw [if_neg h]

theorem jlookup_map_update_ne {α : Type} (obj : List (String × α))
    (k a : String) (v : α) (hne : a ≠ k) :
    jlookup (obj.map (fun kv => if kv.1 = k then (kv.1, v) else kv)) a =
      jlookup obj a := by
  induction obj with
  | nil => rfl
  | cons kv rest ih =>
    by_cases h : kv.1 = k
    · have hna : kv.1 ≠ a := fun he => hne (he ▸ h)
      rw [List.map_cons, if_pos h]
      show (if kv.1 = a then some v else _) = _
      rw [if_neg hna, ih]
      show _ = (if kv.1 = a then some kv.2 else jlookup rest a)
      rw [if_neg hna]
    · rw [List.map_cons, if_neg h]
      show (if kv.1 = a then some kv.2 else _) = _
      by_cases h2 : kv.1 = a
      · rw [if_pos h2]
        show _ = (if kv.1 = a then some kv.2 else jlookup rest a)
        rw [if_pos h2]
      · rw [if_neg h2, ih]
        show _ = (if kv.1 = a then some kv.2 else jlookup rest a)
        rw [if_neg h2]

theorem jlookup_assignField_self {α : Type} (obj : List (String × α))
    (k : String) (v : α) :
    jlookup (assignField obj k v) k = some v := by
  unfold assignField
  by_cases ha : k ∈ obj.map Prod.fst
  · rw [if_pos ha, jlookup_map_update_self]
    rcases hx : jlookup obj k with _ | x
    · rw [jlookup_eq_none_iff] at hx
      exact absurd ha hx
    · rfl
  · rw [if_neg ha, jlookup_append]
    have hx : jlookup obj k = none := (jlookup_eq_none_iff obj k).mpr ha
    simp [hx, jlookup]

theorem jlookup_assignField_ne {α : Type} (obj : List (String × α))
    (k a : String) (v : α) (hne : a ≠ k) :
    jlookup (assignField obj k v) a = jlookup obj a := by
  unfold assignField
  by_cases ha : k ∈ obj.map Prod.fst
  · rw [if_pos ha]
    exact jlookup_map_update_ne obj k a v hne
  · rw [if_neg ha, jlookup_append]
    have hka : k ≠ a := fun he => hne he.symm
    rcases hx : jlookup obj a with _ | x
    · simp [hx, jlookup, hka]
    · rfl

/-! ### The JSON object written by `env2json` -/

theorem envReduce_loop_snd (env : String → Option String) (vars : List String) :
    ∀ obj : List (String × Option String), (∀ p ∈ obj, p.2 = env p.1) →
      ∀ p ∈ vars.foldl (fun o v => assignField o v (env v)) obj,
        p.2 = env p.1 := by
  induction vars with
  | nil =>
    intro obj h
    simpa using h
  | cons v vs ih =>
    intro obj h
    simp only [List.foldl_cons]
    exact ih _ (assignField_snd env obj v h)

theorem envReduce_loop_keys (env : String → Option String) (vars : List String) :
    ∀ (obj : List (String × Option String)) (a : String),
      a ∈ keysOf (vars.foldl (fun o v => assignField o v (env v)) obj) ↔
        a ∈ keysOf obj ∨ a ∈ vars := by
  induction vars with
  | nil => simp
  | cons v vs ih =>
    intro obj a
    simp only [List.foldl_cons, List.mem_cons]
    rw [ih, mem_keysOf_assignField]
    tauto

theorem envReduce_loop_nodup (env : String → Option String)
    (vars : List String) :
    ∀ obj : List (String × Option String), (keysOf obj).Nodup →
      (keysOf (vars.foldl (fun o v => assignField o v (env v)) obj)).Nodup := by
  induction vars with
  | nil =>
    intro obj h
    simpa using h
  | cons v vs ih =>
    intro obj h
    simp only [List.foldl_cons]
    exact ih _ (nodup_keysOf_assignField obj v (env v) h)

theorem envReduce_snd (env : String → Option String) (vars : List String) :
    ∀ p ∈ envReduce env vars, p.2 = env p.1 :=
  envReduce_loop_snd env vars [] (by simp)

theorem mem_keysOf_envReduce (env : String → Option String) (vars : List String)
    (a : String) : a ∈ keysOf (envReduce env vars) ↔ a ∈ vars := by
  rw [envReduce, envReduce_loop_keys]
  simp [keysOf]

theorem nodup_keysOf_envReduce (env : String → Option String)
    (vars : List String) : (keysOf (envReduce env vars)).Nodup :=
  envReduce_loop_nodup env vars [] (by simp [keysOf])

theorem mem_stringifyEntries {obj : List (String × Option String)}
    {k s : String} : (k, s) ∈ stringifyEntries obj ↔ (k, some s) ∈ obj := by
  induction obj with
  | nil => simp [stringifyEntries]
  | cons kv rest ih =>
    rcases kv with ⟨k1, v1⟩
    cases v1 <;> simp [stringifyEntries, List.filterMap_cons] at ih ⊢ <;>
      rw [ih]

theorem keysOf_stringifyEntries_sublist (obj : List (String × Option String)) :
    (keysOf (stringifyEntries obj)).Sublist (keysOf obj) := by
  induction obj with
  | nil => simp [stringifyEntries, keysOf]
  | cons kv rest ih =>
    rcases kv with ⟨k1, v1⟩
    cases v1
    · simpa [stringifyEntries, List.filterMap_cons, keysOf] using ih.cons k1
    · simpa [stringifyEntries, List.filterMap_cons, keysOf] using ih.cons₂ k1

theorem envJson_values (env : String → Option String) (vars : List String) :
    ∀ k s, (k, s) ∈ stringifyEntries (envReduce env vars) → env k = some s := by
  intro k s h
  have h1 : (k, some s) ∈ envReduce env vars := mem_stringifyEntries.mp h
  have h2 := envReduce_snd env vars (k, some s) h1
  exact h2.symm

theorem envJson_keys (env : String → Option String) (vars : List String)
    (a : String) :
    a ∈ keysOf (stringifyEntries (envReduce env vars)) ↔
      a ∈ vars ∧ env a ≠ none := by
  constructor
  · intro h
    rcases mem_keysOf.mp h with ⟨s, hs⟩
    have h1 : (a, some s) ∈ envReduce env vars := mem_stringifyEntries.mp hs
    refine ⟨(mem_keysOf_envReduce env vars a).mp (mem_keysOf.mpr ⟨_, h1⟩), ?_⟩
    rw [envJson_values env vars a s hs]
    simp
  · rintro ⟨hv, hne⟩
    have hk : a ∈ keysOf (envReduce env vars) :=
      (mem_keysOf_envReduce env vars a).mpr hv
    rcases mem_keysOf.mp hk with ⟨val, hval⟩
    have h2 : val = env a := envReduce_snd env vars (a, val) hval
    rcases henv : env a with _ | s
    · exact absurd henv hne
    · rw [henv] at h2
      subst h2
      exact mem_keysOf.mpr ⟨s, mem_stringifyEntries.mpr hval⟩

theorem envJson_nodup (env : String → Option String) (vars : List String) :
    (keysOf (stringifyEntries (envReduce env vars))).Nodup :=
  (nodup_keysOf_envReduce env vars).sublist
    (keysOf_stringifyEntries_sublist _)

/-! ### Trace extractor simp lemmas -/

@[simp] theorem spawnCmds_nil : spawnCmds [] = [] := rfl

@[simp] theorem spawnCmds_append (a b : List Ev) :
    spawnCmds (a ++ b) = spawnCmds a ++ spawnCmds b :=
  List.filterMap_append a b _

@[simp] theorem spawnCmds_cons_spawn (c : String) (args : List String)
    (tr : List Ev) : spawnCmds (Ev.spawn c args :: tr) = c :: spawnCmds tr :=
  rfl

@[simp] theorem spawnCmds_cons_execCopy (s d : String) (tr : List Ev) :
    spawnCmds (Ev.execCopy s d :: tr) = spawnCmds tr := rfl

@[simp] theorem spawnCmds_cons_ensureDir (p : String) (tr : List Ev) :
    spawnCmds (Ev.ensureDir p :: tr) = spawnCmds tr := rfl

@[simp] theorem spawnCmds_cons_log (s : String) (tr : List Ev) :
    spawnCmds (Ev.log s :: tr) = spawnCmds tr := rfl

@[simp] theorem spawnCmds_cons_errorExit (s : String) (tr : List Ev) :
    spawnCmds (Ev.errorExit s :: tr) = spawnCmds tr := rfl

@[simp] theorem removedPaths_nil : removedPaths [] = [] := rfl

@[simp] theorem removedPaths_append (a b : List Ev) :
    removedPaths (a ++ b) = removedPaths a ++ removedPaths b :=
  List.filterMap_append a b _

@[simp] theorem removedPaths_cons_removed (p : String) (tr : List Ev) :
    removedPaths (Ev.removed p :: tr) = p :: removedPaths tr := rfl

@[simp] theorem removedPaths_cons_log (s : String) (tr : List Ev) :
    removedPaths (Ev.log s :: tr) = removedPaths tr := rfl

@[simp] theorem removedPaths_cons_errorExit (s : String) (tr : List Ev) :
    removedPaths (Ev.errorExit s :: tr) = removedPaths tr := rfl

@[simp] theorem logsOf_nil : logsOf [] = [] := rfl

@[simp] theorem logsOf_append (a b : List Ev) :
    logsOf (a ++ b) = logsOf a ++ logsOf b :=
  List.filterMap_append a b _

@[simp] theorem logsOf_cons_removed (p : String) (tr : List Ev) :
    logsOf (Ev.removed p :: tr) = logsOf tr := rfl

@[simp] theorem logsOf_cons_log (s : String) (tr : List Ev) :
    logsOf (Ev.log s :: tr) = s :: logsOf tr := rfl

@[simp] theorem logsOf_cons_errorExit (s : String) (tr : List Ev) :
    logsOf (Ev.errorExit s :: tr) = logsOf tr := rfl

@[simp] theorem errorExitsOf_nil : errorExitsOf [] = [] := rfl

@[simp] theorem errorExitsOf_append (a b : List Ev) :
    errorExitsOf (a ++ b) = errorExitsOf a ++ errorExitsOf b :=
  List.filterMap_append a b _

@[simp] theorem errorExitsOf_cons_removed (p : String) (tr : List Ev) :
    errorExitsOf (Ev.removed p :: tr) = errorExitsOf tr := rfl

@[simp] theorem errorExitsOf_cons_log (s : String) (tr : List Ev) :
    errorExitsOf (Ev.log s :: tr) = errorExitsOf tr := rfl

@[simp] theorem errorExitsOf_cons_errorExit (s : String) (tr : List Ev) :
    errorExitsOf (Ev.errorExit s :: tr) = s :: errorExitsOf tr := rfl

/-! ### Stage lemmas for `_clean` -/

theorem runRemoves_logs (w : World) (ps : List String) :
    logsOf (runRemoves w ps).1 =
      (removedPaths (runRemoves w ps).1).map (fun p => "Removed " ++ p) := by
  induction ps with
  | nil => rfl
  | cons p ps ih =>
    by_cases h : w.removeOk p = true <;> simp [runRemoves, h, ih]

theorem runRemoves_true_noErr (w : World) (ps : List String)
    (h : (runRemoves w ps).2 = true) :
    errorExitsOf (runRemoves w ps).1 = [] := by
  induction ps with
  | nil => rfl
  | cons p ps ih =>
    by_cases hp : w.removeOk p = true
    · simp only [runRemoves, hp, if_true] at h ⊢
      simpa using ih h
    · simp [runRemoves, hp] at h

theorem runRemoves_false_shape (w : World) (ps : List String)
    (h : (runRemoves w ps).2 = false) :
    ∃ pre m, (runRemoves w ps).1 = pre ++ [Ev.errorExit m] ∧
      errorExitsOf pre = [] := by
  induction ps with
  | nil => simp [runRemoves] at h
  | cons p ps ih =>
    by_cases hp : w.removeOk p = true
    · simp only [runRemoves, hp, if_true] at h ⊢
      rcases ih h with ⟨pre, m, hsh, hpre⟩
      refine ⟨Ev.removed p :: Ev.log ("Removed " ++ p) :: pre, m, ?_, ?_⟩
      · simp [hsh]
      · simp [hpre]
    · refine ⟨[], "Error while removing " ++ p ++ ": " ++ w.removeErr p, ?_, rfl⟩
      simp [runRemoves, hp]

theorem runRemoves_all_ok (w : World) (ps : List String)
    (h : ∀ p ∈ ps, w.removeOk p = true) :
    removedPaths (runRemoves w ps).1 = ps ∧ (runRemoves w ps).2 = true := by
  induction ps with
  | nil => exact ⟨rfl, rfl⟩
  | cons p ps ih =>
    have hp : w.removeOk p = true := h p (List.mem_cons_self p ps)
    have hrest := ih (fun q hq => h q (List.mem_cons_of_mem p hq))
    simp [runRemoves, hp, hrest.1, hrest.2]

theorem removeLogEvents_append (a b : List String) :
    removeLogEvents (a ++ b) = removeLogEvents a ++ removeLogEvents b := by
  induction a with
  | nil => rfl
  | cons p ps ih => simp [removeLogEvents, ih]

theorem removedPaths_removeLogEvents (ps : List String) :
    removedPaths (removeLogEvents ps) = ps := by
  induction ps with
  | nil => rfl
  | cons p ps ih => simp [removeLogEvents, ih]

/-- When every removal in the list succeeds, `_remove` produces exactly the
removal/log pairs, in order, and the command survives. -/
theorem runRemoves_all_ok_events (w : World) (ps : List String)
    (h : ∀ p ∈ ps, w.removeOk p = true) :
    runRemoves w ps = (removeLogEvents ps, true) := by
  induction ps with
  | nil => rfl
  | cons p ps ih =>
    have hp : w.removeOk p = true := h p (List.mem_cons_self p ps)
    have hrest := ih (fun q hq => h q (List.mem_cons_of_mem p hq))
    simp [runRemoves, hp, removeLogEvents, hrest]

/-- The first failing removal in a `_remove` sequence aborts it: the trace
is exactly the removal/log pairs of the successful prefix followed by the
failing removal's printed error, and nothing further is attempted. -/
theorem runRemoves_first_fail (w : World) (good : List String) (bad : String)
    (rest : List String) (hg : ∀ p ∈ good, w.removeOk p = true)
    (hb : w.removeOk bad = false) :
    runRemoves w (good ++ bad :: rest) =
      (removeLogEvents good ++ [Ev.errorExit ("Error while removing " ++ bad
        ++ ": " ++ w.removeErr bad)], false) := by
  induction good with
  | nil => simp [runRemoves, hb, removeLogEvents]
  | cons p ps ih =>
    have hp : w.removeOk p = true := hg p (List.mem_cons_self p ps)
    have hrest := ih (fun q hq => hg q (List.mem_cons_of_mem p hq))
    simp [runRemoves, hp, removeLogEvents, hrest]

theorem pathStep_shape (acc : List Ev) (o : Options) (w : World) :
    ∃ direct : List Ev,
      (pathStep acc o w).1 = acc ++ direct ∧
      errorExitsOf direct = [] ∧ logsOf direct = [] ∧
      (removedPaths direct = [] ∨
        ∃ p, o.path = some p ∧ removedPaths direct = [p]) ∧
      ((pathStep acc o w).2 = ExitKind.normal ∨
        ∃ m, (pathStep acc o w).2 = ExitKind.uncaught m) := by
  rcases hp : o.path with _ | p
  · exact ⟨[], by simp [pathStep, hp], rfl, rfl, Or.inl rfl,
      Or.inl (by simp [pathStep, hp])⟩
  · by_cases he : p = ""
    · exact ⟨[], by simp [pathStep, hp, he], rfl, rfl, Or.inl rfl,
      Or.inl (by simp [pathStep, hp, he])⟩
    · by_cases hok : w.removeOk p = true
      · refine ⟨[Ev.removed p], by simp [pathStep, hp, he, hok], rfl, rfl,
          Or.inr ⟨p, rfl, rfl⟩, Or.inl (by simp [pathStep, hp, he, hok])⟩
      · refine ⟨[], by simp [pathStep, hp, he, hok], rfl, rfl, Or.inl rfl,
          Or.inr ⟨w.removeErr p, by simp [pathStep, hp, he, hok]⟩⟩

/-- When `options.path` is falsy (absent or empty), the path scope of
`_clean` does nothing. -/
theorem pathStep_falsy (acc : List Ev) (o : Options) (w : World)
    (hp : strTruthy o.path = false) :
    pathStep acc o w = (acc, ExitKind.normal) := by
  rcases hpo : o.path with _ | p
  · simp [pathStep, hpo]
  · have hpe : p = "" := by
      rw [hpo] at hp
      simpa [strTruthy] using hp
    simp [pathStep, hpo, hpe]

theorem cleanRest_shape (o : Options) (w : World) (s1 : List Ev × Bool)
    (dd : Bool)
    (h1a : logsOf s1.1 = (removedPaths s1.1).map (fun p => "Removed " ++ p))
    (h1b : s1.2 = true → errorExitsOf s1.1 = [])
    (h1c : s1.2 = false → ∃ pre m, s1.1 = pre ++ [Ev.errorExit m] ∧
      errorExitsOf pre = []) :
    (∃ managed direct : List String,
      removedPaths (cleanRest o w s1 dd).1 = managed ++ direct ∧
      logsOf (cleanRest o w s1 dd).1 =
        managed.map (fun p => "Removed " ++ p) ∧
      (direct = [] ∨ ∃ p, o.path = some p ∧ direct = [p])) ∧
    (errorExitsOf (cleanRest o w s1 dd).1 = [] ∨
      ∃ pre m, (cleanRest o w s1 dd).1 = pre ++ [Ev.errorExit m] ∧
        errorExitsOf pre = [] ∧ (cleanRest o w s1 dd).2 = ExitKind.exited 1) := by
  by_cases hs : s1.2 = true
  · by_cases hdd : dd = true
    · rcases hcfg : w.angularConfig with _ | dirs
      · -- reading .angular-cli.json failed: trace is s1.1 ++ one error exit
        have he : cleanRest o w s1 dd =
            (s1.1 ++ [Ev.errorExit ("Error reading .angular-cli.json: "
              ++ w.angularErr)], ExitKind.exited 1) := by
          simp [cleanRest, hs, hdd, hcfg]
        rw [he]
        refine ⟨⟨removedPaths s1.1, [], by simp, by simp [h1a], Or.inl rfl⟩, ?_⟩
        exact Or.inr ⟨s1.1, _, rfl, h1b hs, rfl⟩
      · by_cases hs2 : (runRemoves w dirs).2 = true
        · -- dist removals all succeeded: path scope runs last
          have he : cleanRest o w s1 dd =
              pathStep (s1.1 ++ (runRemoves w dirs).1) o w := by
            simp [cleanRest, hs, hdd, hcfg, hs2]
          rcases pathStep_shape (s1.1 ++ (runRemoves w dirs).1) o w with
            ⟨direct, hd1, hd2, hd3, hd4, _⟩
          rw [he, hd1]
          refine ⟨⟨removedPaths s1.1 ++ removedPaths (runRemoves w dirs).1,
            removedPaths direct, ?_, ?_, ?_⟩, ?_⟩
          · simp [List.append_assoc]
          · simp [h1a, runRemoves_logs, hd3, List.map_append]
          · rcases hd4 with h | ⟨p, hp1, hp2⟩
            · exact Or.inl h
            · exact Or.inr ⟨p, hp1, hp2⟩
          · exact Or.inl (by
              simp [h1b hs, runRemoves_true_noErr w dirs hs2, hd2])
        · -- a dist removal failed: abort with its error exit
          have hs2f : (runRemoves w dirs).2 = false := by
            simpa using hs2
          have he : cleanRest o w s1 dd =
              (s1.1 ++ (runRemoves w dirs).1, ExitKind.exited 1) := by
            simp [cleanRest, hs, hdd, hcfg, hs2f]
          rcases runRemoves_false_shape w dirs hs2f with ⟨pre2, m, hsh, hpre2⟩
          rw [he]
          refine ⟨⟨removedPaths s1.1 ++ removedPaths (runRemoves w dirs).1,
            [], by simp, by simp [h1a, runRemoves_logs, List.map_append],
            Or.inl rfl⟩, ?_⟩
          refine Or.inr ⟨s1.1 ++ pre2, m, ?_, ?_, rfl⟩
          · simp [hsh]
          · simp [h1b hs, hpre2]
    · -- dist scope skipped: path scope runs after the cordova scope
      have hddf : dd = false := by simpa using hdd
      have he : cleanRest o w s1 dd = pathStep s1.1 o w := by
        simp [cleanRest, hs, hddf]
      rcases pathStep_shape s1.1 o w with ⟨direct, hd1, hd2, hd3, hd4, _⟩
      rw [he, hd1]
      refine ⟨⟨removedPaths s1.1, removedPaths direct, by simp,
        by simp [h1a, hd3], ?_⟩, ?_⟩
      · rcases hd4 with h | ⟨p, hp1, hp2⟩
        · exact Or.inl h
        · exact Or.inr ⟨p, hp1, hp2⟩
      · exact Or.inl (by simp [h1b hs, hd2])
  · -- the cordova scope aborted
    have hsf : s1.2 = false := by simpa using hs
    have he : cleanRest o w s1 dd = (s1.1, ExitKind.exited 1) := by
      simp [cleanRest, hsf]
    rcases h1c hsf with ⟨pre, m, hsh, hpre⟩
    rw [he]
    exact ⟨⟨removedPaths s1.1, [], by simp, h1a, Or.inl rfl⟩,
      Or.inr ⟨pre, m, hsh, hpre, rfl⟩⟩

theorem clean_shape (o : Options) (w : World) :
    (∃ managed direct : List String,
      removedPaths (clean o w).1 = managed ++ direct ∧
      logsOf (clean o w).1 = managed.map (fun p => "Removed " ++ p) ∧
      (direct = [] ∨ ∃ p, o.path = some p ∧ direct = [p])) ∧
    (errorExitsOf (clean o w).1 = [] ∨
      ∃ pre m, (clean o w).1 = pre ++ [Ev.errorExit m] ∧
        errorExitsOf pre = [] ∧ (clean o w).2 = ExitKind.exited 1) := by
  unfold clean
  dsimp only
  by_cases hdc : (o.cordova || (!o.cordova && !o.dist && !(strTruthy o.path)))
      = true
  · rw [hdc, if_pos rfl]
    exact cleanRest_shape o w _ _ (runRemoves_logs w _)
      (runRemoves_true_noErr w _) (runRemoves_false_shape w _)
  · rw [if_neg (by simpa using hdc)]
    exact cleanRest_shape o w ([], true) _ rfl (fun _ => rfl)
      (fun h => by simp at h)

theorem clean_eq_cleanRest (o : Options) (w : World) :
    clean o w = cleanRest o w
      (if (o.cordova || (!o.cordova && !o.dist && !(strTruthy o.path))) = true
       then runRemoves w ["platforms", "plugins"] else ([], true))
      (o.dist || (!o.cordova && !o.dist && !(strTruthy o.path))) := rfl

/-- Any managed removal (`platforms`, `plugins` or a dist directory) that is
the first to fail aborts `_clean` immediately: the whole trace is the
removal/log pairs of the removals before it followed by exactly its printed
error, the exit code is 1, and nothing scheduled after it is attempted. -/
theorem clean_first_managed_failure (o : Options) (w : World)
    (good : List String) (bad : String) (rest : List String)
    (hsch : managedSchedule o w = good ++ bad :: rest)
    (hg : ∀ p ∈ good, w.removeOk p = true)
    (hb : w.removeOk bad = false) :
    clean o w = (removeLogEvents good ++
      [Ev.errorExit ("Error while removing " ++ bad ++ ": "
        ++ w.removeErr bad)], ExitKind.exited 1) := by
  have hcr := clean_eq_cleanRest o w
  unfold managedSchedule at hsch
  dsimp only at hsch
  by_cases hdc : (o.cordova || (!o.cordova && !o.dist && !(strTruthy o.path)))
      = true
  · rw [if_pos hdc] at hcr hsch
    rcases good with _ | ⟨g1, gtail⟩
    · -- the very first removal, `platforms`, fails
      simp only [List.nil_append, List.cons_append, List.cons.injEq] at hsch
      rcases hsch with ⟨hb1, -⟩
      have hbp : w.removeOk "platforms" = false := hb1 ▸ hb
      have hs1 : runRemoves w ["platforms", "plugins"] =
          ([Ev.errorExit ("Error while removing " ++ "platforms" ++ ": "
            ++ w.removeErr "platforms")], false) := by
        simpa [removeLogEvents] using
          runRemoves_first_fail w [] "platforms" ["plugins"] (by simp) hbp
      rw [hcr, hs1, ← hb1]
      simp [cleanRest, removeLogEvents]
    · rcases gtail with _ | ⟨g2, gs⟩
      · -- `platforms` succeeds, `plugins` fails
        simp only [List.cons_append, List.nil_append, List.cons.injEq]
          at hsch
        rcases hsch with ⟨hg1, hb1, -⟩
        have hokp : w.removeOk "platforms" = true := by
          rw [hg1]
          exact hg g1 (List.mem_singleton.mpr rfl)
        have hbp : w.removeOk "plugins" = false := hb1 ▸ hb
        have hs1 : runRemoves w ["platforms", "plugins"] =
            (removeLogEvents ["platforms"] ++
              [Ev.errorExit ("Error while removing " ++ "plugins" ++ ": "
                ++ w.removeErr "plugins")], false) := by
          simpa using runRemoves_first_fail w ["platforms"] "plugins" []
            (by simpa using hokp) hbp
        rw [hcr, hs1, ← hg1, ← hb1]
        simp [cleanRest, removeLogEvents]
      · -- both cordova removals succeed; the failure is a dist directory
        simp only [List.cons_append, List.nil_append, List.cons.injEq]
          at hsch
        rcases hsch with ⟨hg1, hg2, hdist⟩
        have hok1 : w.removeOk "platforms" = true := by
          rw [hg1]
          exact hg g1 (by simp)
        have hok2 : w.removeOk "plugins" = true := by
          rw [hg2]
          exact hg g2 (by simp)
        have hgs : ∀ p ∈ gs, w.removeOk p = true := fun p hp =>
          hg p (List.mem_cons_of_mem g1 (List.mem_cons_of_mem g2 hp))
        have hs1 : runRemoves w ["platforms", "plugins"] =
            (removeLogEvents ["platforms", "plugins"], true) := by
          apply runRemoves_all_ok_events
          intro q hq
          simp only [List.mem_cons, List.not_mem_nil, or_false] at hq
          rcases hq with rfl | rfl
          · exact hok1
          · exact hok2
        by_cases hdd : (o.dist || (!o.cordova && !o.dist
            && !(strTruthy o.path))) = true
        · rw [if_pos hdd] at hdist
          rcases hcfg : w.angularConfig with _ | dirs
          · rw [hcfg] at hdist
            simp at hdist
          · rw [hcfg] at hdist
            simp only [Option.getD_some] at hdist
            have hs2 : runRemoves w dirs =
                (removeLogEvents gs ++
                  [Ev.errorExit ("Error while removing " ++ bad ++ ": "
                    ++ w.removeErr bad)], false) := by
              rw [hdist]
              exact runRemoves_first_fail w gs bad rest hgs hb
            rw [hcr, hs1, ← hg1, ← hg2]
            simp [cleanRest, hdd, hcfg, hs2, removeLogEvents,
              List.append_assoc]
        · rw [if_neg hdd] at hdist
          simp at hdist
  · rw [if_neg hdc] at hcr hsch
    simp only [List.nil_append] at hsch
    by_cases hdd : (o.dist || (!o.cordova && !o.dist && !(strTruthy o.path)))
        = true
    · rw [if_pos hdd] at hsch
      rcases hcfg : w.angularConfig with _ | dirs
      · rw [hcfg] at hsch
        simp at hsch
      · rw [hcfg] at hsch
        simp only [Option.getD_some] at hsch
        have hs2 : runRemoves w dirs =
            (removeLogEvents good ++
              [Ev.errorExit ("Error while removing " ++ bad ++ ": "
                ++ w.removeErr bad)], false) := by
          rw [hsch]
          exact runRemoves_first_fail w good bad rest hg hb
        rw [hcr]
        simp [cleanRest, hdd, hcfg, hs2]
    · rw [if_neg hdd] at hsch
      simp at hsch

/-- When every managed removal succeeds but the explicit `--path` removal
fails, `_clean` performs and logs the managed removals and then terminates
through the unhandled `fs.removeSync` exception: the named path is not
removed, nothing is logged for it, and the process terminates with the
uncaught error rather than through `_exit`. -/
theorem clean_path_failure_uncaught (o : Options) (w : World) (p : String)
    (hp : o.path = some p) (hne : p ≠ "")
    (hok : ∀ q ∈ managedSchedule o w, w.removeOk q = true)
    (hcfg : o.dist = true → w.angularConfig ≠ none)
    (hpf : w.removeOk p = false) :
    clean o w = (removeLogEvents (managedSchedule o w),
      ExitKind.uncaught (w.removeErr p)) := by
  have hst : strTruthy o.path = true := by simp [hp, strTruthy, hne]
  have hdef : (!o.cordova && !o.dist && !(strTruthy o.path)) = false := by
    simp [hst]
  have hcr := clean_eq_cleanRest o w
  rw [hdef] at hcr
  simp only [Bool.or_false] at hcr
  have hsch : managedSchedule o w =
      (if o.cordova = true then ["platforms", "plugins"] else []) ++
      (if o.dist = true then w.angularConfig.getD [] else []) := by
    unfold managedSchedule
    dsimp only
    rw [hdef]
    simp only [Bool.or_false]
  rw [hsch] at hok ⊢
  have hpath : ∀ acc, pathStep acc o w =
      (acc, ExitKind.uncaught (w.removeErr p)) := by
    intro acc
    simp [pathStep, hp, hne, hpf]
  by_cases hco : o.cordova = true
  · have hs1 : runRemoves w ["platforms", "plugins"] =
        (removeLogEvents ["platforms", "plugins"], true) := by
      apply runRemoves_all_ok_events
      intro q hq
      refine hok q (List.mem_append.mpr (Or.inl ?_))
      rw [if_pos hco]
      exact hq
    by_cases hdi : o.dist = true
    · rcases hcfgv : w.angularConfig with _ | dirs
      · exact absurd hcfgv (hcfg hdi)
      · have hs2 : runRemoves w dirs = (removeLogEvents dirs, true) := by
          apply runRemoves_all_ok_events
          intro q hq
          refine hok q (List.mem_append.mpr (Or.inr ?_))
          rw [if_pos hdi, hcfgv]
          simpa using hq
        rw [hcr, if_pos hco, hs1]
        simp [cleanRest, hdi, hcfgv, hs2, hpath, removeLogEvents_append,
          hco, removeLogEvents]
    · have hdif : o.dist = false := by simpa using hdi
      rw [hcr, if_pos hco, hs1]
      simp [cleanRest, hdif, hpath, removeLogEvents_append, hco,
        removeLogEvents]
  · have hcof : o.cordova = false := by simpa using hco
    rw [hcr, if_neg hco]
    by_cases hdi : o.dist = true
    · rcases hcfgv : w.angularConfig with _ | dirs
      · exact absurd hcfgv (hcfg hdi)
      · have hs2 : runRemoves w dirs = (removeLogEvents dirs, true) := by
          apply runRemoves_all_ok_events
          intro q hq
          refine hok q (List.mem_append.mpr (Or.inr ?_))
          rw [if_pos hdi, hcfgv]
          simpa using hq
        simp [cleanRest, hdi, hcfgv, hs2, hpath, removeLogEvents, hcof]
    · have hdif : o.dist = false := by simpa using hdi
      simp [cleanRest, hdif, hpath, removeLogEvents, hcof]

/-! ### Claim theorems -/

/-- C3: `env2json` invoked with zero variable names prints a usage error and
exits with the non-zero code 1, and performs no file write at all — in
particular the output path (default or given) is never written. -/
theorem env2json_no_vars_exits_without_write (w : World) (outputFile : String) :
    env2json w [] outputFile =
      ([Ev.errorExit "Missing arguments\n"], ExitKind.exited 1) ∧
    writtenEntries (env2json w [] outputFile).1 = [] :=
  ⟨rfl, rfl⟩

/-- C1 counterexample: requesting the single name `FOO` in a world where
`FOO` is unset produces a successful write of the empty JSON object — the
key set `∅` does not equal the input name set `{FOO}`, refuting the claim
that the keys exactly equal the input names. -/
theorem env2json_unset_var_key_omitted :
    env2json wNoEnv ["FOO"] "out.json" =
      ([Ev.writeJson "out.json" []], ExitKind.normal) ∧
    "FOO" ∉ keysOf (writtenEntries (env2json wNoEnv ["FOO"] "out.json").1) := by
  exact ⟨rfl, by decide⟩

/-- C1 (amended): for every non-empty list of variable names, when the
output write succeeds, `env2json` writes a single JSON object with distinct
keys whose key set equals exactly the requested names that are set in the
process environment, and whose value at each present key is the environment
lookup of that key at invocation time. -/
theorem env2json_nonempty_writes_set_vars (w : World) (vars : List String)
    (outputFile : String) (hv : vars ≠ [])
    (hw : w.writeOk outputFile = true) :
    ∃ entries,
      env2json w vars outputFile =
        ([Ev.writeJson outputFile entries], ExitKind.normal) ∧
      (keysOf entries).Nodup ∧
      (∀ k, k ∈ keysOf entries ↔ k ∈ vars ∧ w.env k ≠ none) ∧
      (∀ k s, (k, s) ∈ entries → w.env k = some s) := by
  refine ⟨stringifyEntries (envReduce w.env vars), ?_, envJson_nodup _ _,
    fun k => envJson_keys w.env vars k, envJson_values w.env vars⟩
  simp [env2json, hv, hw]

/-- Witness for `env2json_nonempty_writes_set_vars` at the concrete request
`[HOME, MISSING]` against `wAll`, whose environment sets only `HOME`. -/
theorem env2json_nonempty_writes_set_vars_witness :
    (["HOME", "MISSING"] : List String) ≠ [] ∧
    wAll.writeOk "o.json" = true ∧
    (∃ entries,
      env2json wAll ["HOME", "MISSING"] "o.json" =
        ([Ev.writeJson "o.json" entries], ExitKind.normal) ∧
      (keysOf entries).Nodup ∧
      (∀ k, k ∈ keysOf entries ↔ k ∈ ["HOME", "MISSING"] ∧
        wAll.env k ≠ none) ∧
      (∀ k s, (k, s) ∈ entries → wAll.env k = some s)) :=
  ⟨by decide, rfl,
    env2json_nonempty_writes_set_vars wAll ["HOME", "MISSING"] "o.json"
      (by decide) rfl⟩

/-- C10: every requested variable name that is unset in the process
environment is omitted entirely from the written JSON object, so the keys of
the written object are exactly the requested names that are set. -/
theorem env2json_keys_are_exactly_set_requested_vars (w : World)
    (vars : List String) (outputFile : String) (hv : vars ≠ [])
    (hw : w.writeOk outputFile = true) :
    ∃ entries,
      env2json w vars outputFile =
        ([Ev.writeJson outputFile entries], ExitKind.normal) ∧
      (∀ v, v ∈ vars → w.env v = none → v ∉ keysOf entries) ∧
      (∀ k, k ∈ keysOf entries ↔ k ∈ vars ∧ w.env k ≠ none) := by
  refine ⟨stringifyEntries (envReduce w.env vars), ?_, ?_,
    fun k => envJson_keys w.env vars k⟩
  · simp [env2json, hv, hw]
  · intro v _ hnone hmem
    exact ((envJson_keys w.env vars v).mp hmem).2 hnone

/-- Witness for `env2json_keys_are_exactly_set_requested_vars` at the
concrete request `[FOO, HOME]` against `wAll` (only `HOME` is set). -/
theorem env2json_keys_are_exactly_set_requested_vars_witness :
    (["FOO", "HOME"] : List String) ≠ [] ∧
    wAll.writeOk "x.json" = true ∧
    (∃ entries,
      env2json wAll ["FOO", "HOME"] "x.json" =
        ([Ev.writeJson "x.json" entries], ExitKind.normal) ∧
      (∀ v, v ∈ ["FOO", "HOME"] → wAll.env v = none →
        v ∉ keysOf entries) ∧
      (∀ k, k ∈ keysOf entries ↔ k ∈ ["FOO", "HOME"] ∧
        wAll.env k ≠ none)) :=
  ⟨by decide, rfl,
    env2json_keys_are_exactly_set_requested_vars wAll ["FOO", "HOME"]
      "x.json" (by decide) rfl⟩

/-- C7: with `--fast` the build pre-step (`npm run build` or `yarn build`)
is never spawned, while the packaging tool `cordova` is spawned exactly
once: the spawned-command list of the whole handler is exactly
`[cordova]`. -/
theorem cordova_fast_spawns_only_cordova (o : Options) (w : World)
    (h : o.fast = true) :
    spawnCmds (cordovaCmd o w).1 = ["cordova"] := by
  unfold cordovaCmd
  simp only [h, ite_true]
  split_ifs <;> simp

/-- Witness for `cordova_fast_spawns_only_cordova` at the concrete
invocation `cordova run --fast`. -/
theorem cordova_fast_spawns_only_cordova_witness :
    ({ positional := ["cordova", "run"], fast := true } : Options).fast
      = true ∧
    spawnCmds (cordovaCmd { positional := ["cordova", "run"], fast := true }
      wAll).1 = ["cordova"] :=
  ⟨rfl, cordova_fast_spawns_only_cordova _ wAll rfl⟩

/-- C2 (code bug): for the invocation `ngx-scripts cordova build --copy
dist` in a world where both copy patterns would succeed (`wAll`), the
handler performs no directory creation, no copy command and no
`Apps copied` log: `options._[0]` is the command name `cordova`, never the
literal `build` that line 118 compares against, so the whole copy step is
unreachable — contradicting the claim (and the tool's own help text for
`--copy`). -/
theorem run_cordova_build_copy_performs_no_copy :
    run ["cordova", "build", "--copy", "dist"] oCordovaBuildCopy wAll =
      ([Ev.spawn "npm run" ["build", "--"],
        Ev.spawn "cordova" ["build", "--no-telemetry"]], ExitKind.normal) ∧
    execCopies (run ["cordova", "build", "--copy", "dist"]
      oCordovaBuildCopy wAll).1 = [] ∧
    logsOf (run ["cordova", "build", "--copy", "dist"]
      oCordovaBuildCopy wAll).1 = [] :=
  ⟨rfl, rfl, rfl⟩

/-- C4 (code bug): for the invocation `ngx-scripts cordova build --copy
dist` in a world with no matching artifact on either platform
(`wNoArtifacts`), the process completes normally with no error printed —
the copy branch guarded by `options._['0'] === 'build'` is unreachable, so
the promised non-zero "no app builds found" failure never happens. -/
theorem run_cordova_build_copy_missing_artifacts_no_error :
    run ["cordova", "build", "--copy", "dist"] oCordovaBuildCopy
        wNoArtifacts =
      ([Ev.spawn "npm run" ["build", "--"],
        Ev.spawn "cordova" ["build", "--no-telemetry"]], ExitKind.normal) ∧
    errorExitsOf (run ["cordova", "build", "--copy", "dist"]
      oCordovaBuildCopy wNoArtifacts).1 = [] ∧
    (run ["cordova", "build", "--copy", "dist"] oCordovaBuildCopy
      wNoArtifacts).2 = ExitKind.normal :=
  ⟨rfl, rfl, rfl⟩

/-- C5: `clean` with none of the three scope flags removes the platform and
plugin directories and every distribution directory listed in the
build-configuration's `apps[].outDir` fields — and nothing else, in
particular no explicitly named path — and completes normally. -/
theorem clean_default_scope_removes_cordova_and_dist (o : Options)
    (w : World) (dirs : List String) (hc : o.cordova = false)
    (hd : o.dist = false) (hp : strTruthy o.path = false)
    (hcfg : w.angularConfig = some dirs) (hok : ∀ p, w.removeOk p = true) :
    removedPaths (clean o w).1 = ["platforms", "plugins"] ++ dirs ∧
    (clean o w).2 = ExitKind.normal := by
  have h1 := runRemoves_all_ok w ["platforms", "plugins"] (fun p _ => hok p)
  have h2 := runRemoves_all_ok w dirs (fun p _ => hok p)
  have hps := pathStep_falsy
    ((runRemoves w ["platforms", "plugins"]).1 ++ (runRemoves w dirs).1) o w hp
  have he : clean o w =
      ((runRemoves w ["platforms", "plugins"]).1 ++ (runRemoves w dirs).1,
        ExitKind.normal) := by
    simp [clean, cleanRest, hc, hd, hp, h1.2, hcfg, h2.2, hps]
  rw [he]
  simp [h1.1, h2.1]

/-- Witness for `clean_default_scope_removes_cordova_and_dist` at the bare
invocation `clean` against `wAll` (one configured dist directory). -/
theorem clean_default_scope_removes_cordova_and_dist_witness :
    ({} : Options).cordova = false ∧ ({} : Options).dist = false ∧
    strTruthy ({} : Options).path = false ∧
    wAll.angularConfig = some ["dist"] ∧ (∀ p, wAll.removeOk p = true) ∧
    (removedPaths (clean {} wAll).1 = ["platforms", "plugins"] ++ ["dist"] ∧
      (clean {} wAll).2 = ExitKind.normal) :=
  ⟨rfl, rfl, rfl, rfl, fun _ => rfl,
    clean_default_scope_removes_cordova_and_dist {} wAll ["dist"]
      rfl rfl rfl rfl (fun _ => rfl)⟩

/-- C6 counterexample: with only `--path ''` — an explicit but empty path,
which is falsy in JS — `_clean` falls back to the default scope: it removes
`platforms`, `plugins` and the configured dist directory and does not
remove the named (empty) path, refuting "exactly X is removed" at X = ''. -/
theorem clean_empty_path_falls_back_to_default_scope :
    removedPaths (clean { path := some "" } wAll).1 =
      ["platforms", "plugins", "dist"] ∧
    (clean { path := some "" } wAll).2 = ExitKind.normal :=
  ⟨rfl, rfl⟩

/-- C6 (amended): for a non-empty explicit path X given with neither
`--cordova` nor `--dist`, exactly X is removed and nothing else: the whole
trace is the single successful removal of X. -/
theorem clean_path_only_removes_exactly_that_path (o : Options) (w : World)
    (x : String) (hc : o.cordova = false) (hd : o.dist = false)
    (hp : o.path = some x) (hx : x ≠ "") (hok : w.removeOk x = true) :
    clean o w = ([Ev.removed x], ExitKind.normal) := by
  have hts : strTruthy (some x) = true := by simp [strTruthy, hx]
  simp [clean, cleanRest, hc, hd, hp, hts, pathStep, hx, hok]

/-- Witness for `clean_path_only_removes_exactly_that_path` at the concrete
invocation `clean --path tmp2` against `wAll`. -/
theorem clean_path_only_removes_exactly_that_path_witness :
    ({ path := some "tmp2" } : Options).cordova = false ∧
    ({ path := some "tmp2" } : Options).dist = false ∧
    ({ path := some "tmp2" } : Options).path = some "tmp2" ∧
    ("tmp2" : String) ≠ "" ∧ wAll.removeOk "tmp2" = true ∧
    clean { path := some "tmp2" } wAll =
      ([Ev.removed "tmp2"], ExitKind.normal) :=
  ⟨rfl, rfl, rfl, by decide, rfl,
    clean_path_only_removes_exactly_that_path _ wAll "tmp2"
      rfl rfl rfl (by decide) rfl⟩

/-- C8: on a locatable, parseable manifest whose write-back succeeds,
`unpin-ionic-dependencies` writes back, in place and pretty-printed, a
manifest whose `peerDependencies` field is the empty object, while every
other top-level field is preserved (same lookup result, and no field is
added or dropped beyond `peerDependencies` itself). -/
theorem unpin_clears_peer_dependencies_preserves_rest (w : World)
    (pkg : List (String × JVal)) (hp : w.ionicPkg = some pkg)
    (hw : w.writeOk ionicPkgPath = true) :
    unpinIonicDependencies w =
      ([Ev.writeManifest ionicPkgPath true
        (assignField pkg "peerDependencies" (JVal.obj []))],
        ExitKind.normal) ∧
    jlookup (assignField pkg "peerDependencies" (JVal.obj []))
      "peerDependencies" = some (JVal.obj []) ∧
    (∀ k, k ≠ "peerDependencies" →
      jlookup (assignField pkg "peerDependencies" (JVal.obj [])) k =
        jlookup pkg k) ∧
    (∀ k, k ∈ keysOf (assignField pkg "peerDependencies" (JVal.obj [])) ↔
      k ∈ keysOf pkg ∨ k = "peerDependencies") := by
  refine ⟨?_, jlookup_assignField_self pkg _ _,
    fun k hk => jlookup_assignField_ne pkg _ k _ hk,
    fun k => mem_keysOf_assignField pkg _ k _⟩
  simp [unpinIonicDependencies, hp, hw]

/-- Witness for `unpin_clears_peer_dependencies_preserves_rest` at the
concrete manifest `ionicPkgFields` against `wAll`: the peer-dependency
field of the written manifest is the empty object and the `version` field
is unchanged. -/
theorem unpin_clears_peer_dependencies_preserves_rest_witness :
    wAll.ionicPkg = some ionicPkgFields ∧
    wAll.writeOk ionicPkgPath = true ∧
    jlookup (assignField ionicPkgFields "peerDependencies" (JVal.obj []))
      "peerDependencies" = some (JVal.obj []) ∧
    jlookup (assignField ionicPkgFields "peerDependencies" (JVal.obj []))
      "version" = jlookup ionicPkgFields "version" :=
  ⟨rfl, rfl,
    (unpin_clears_peer_dependencies_preserves_rest wAll ionicPkgFields
      rfl rfl).2.1,
    (unpin_clears_peer_dependencies_preserves_rest wAll ionicPkgFields
      rfl rfl).2.2.1 "version" (by decide)⟩

/-- C9 counterexample: `clean --path tmp` with the removal succeeding
removes `tmp` but logs nothing at all — the explicit-path removal bypasses
`_remove`, refuting "removals that succeed are logged one at a time". -/
theorem clean_explicit_path_removal_unlogged :
    (clean { path := some "tmp" } wAll).1 = [Ev.removed "tmp"] ∧
    logsOf (clean { path := some "tmp" } wAll).1 = [] ∧
    (clean { path := some "tmp" } wAll).2 = ExitKind.normal :=
  ⟨rfl, rfl, rfl⟩

/-- C9 (amended): in every `clean` invocation,
(1) the successful removals split into the managed ones (platform/plugin
and distribution directories) followed by an optional direct removal of
`options.path`, and exactly the managed ones are logged, one log per
removal in order;
(2) a printed error, when one occurs, is the last event of the trace (no
further removal or log follows) and comes with exit code 1;
(3) each managed removal — `platforms`, `plugins` or any distribution
directory — that is the first to fail with an I/O error aborts the whole
command: the trace is exactly the logged successes before it followed by
its printed error, the exit code is 1, and nothing scheduled after it is
attempted;
(4) when every managed removal succeeds but the explicit `--path` removal
fails, the failure escapes as an unhandled exception: the managed removals
are performed and logged, nothing is removed or logged for the named path,
and the process terminates with the non-zero exit code 1, though not
through `_exit`. -/
theorem clean_aborts_on_failure_and_logs_managed_removals (o : Options)
    (w : World) :
    (∃ managed direct : List String,
      removedPaths (clean o w).1 = managed ++ direct ∧
      logsOf (clean o w).1 = managed.map (fun p => "Removed " ++ p) ∧
      (direct = [] ∨ ∃ p, o.path = some p ∧ direct = [p])) ∧
    (errorExitsOf (clean o w).1 = [] ∨
      ∃ pre m, (clean o w).1 = pre ++ [Ev.errorExit m] ∧
        errorExitsOf pre = [] ∧ (clean o w).2 = ExitKind.exited 1) ∧
    (∀ good bad rest, managedSchedule o w = good ++ bad :: rest →
      (∀ p ∈ good, w.removeOk p = true) → w.removeOk bad = false →
      clean o w = (removeLogEvents good ++
        [Ev.errorExit ("Error while removing " ++ bad ++ ": "
          ++ w.removeErr bad)], ExitKind.exited 1)) ∧
    (∀ p, o.path = some p → p ≠ "" →
      (∀ q ∈ managedSchedule o w, w.removeOk q = true) →
      (o.dist = true → w.angularConfig ≠ none) →
      w.removeOk p = false →
      clean o w = (removeLogEvents (managedSchedule o w),
        ExitKind.uncaught (w.removeErr p)) ∧
      exitCode (clean o w).2 = 1) :=
  ⟨(clean_shape o w).1, (clean_shape o w).2,
    fun good bad rest hsch hg hb =>
      clean_first_managed_failure o w good bad rest hsch hg hb,
    fun p hp hne hok hcfg hpf =>
      ⟨clean_path_failure_uncaught o w p hp hne hok hcfg hpf, by
        rw [clean_path_failure_uncaught o w p hp hne hok hcfg hpf]
        rfl⟩⟩

/-- Witness for `clean_aborts_on_failure_and_logs_managed_removals`: its
abort-on-first-failure part applied at the concrete invocation
`clean --cordova` against `wRemoveFail`, where `platforms` is the first
scheduled removal and fails: the only effect is its printed error and the
exit code is 1. -/
theorem clean_aborts_on_failure_and_logs_managed_removals_witness :
    managedSchedule { cordova := true } wRemoveFail =
      [] ++ "platforms" :: ["plugins"] ∧
    wRemoveFail.removeOk "platforms" = false ∧
    clean { cordova := true } wRemoveFail =
      (removeLogEvents [] ++ [Ev.errorExit ("Error while removing "
        ++ "platforms" ++ ": " ++ wRemoveFail.removeErr "platforms")],
        ExitKind.exited 1) :=
  ⟨rfl, rfl,
    (clean_aborts_on_failure_and_logs_managed_removals { cordova := true }
      wRemoveFail).2.2.1 [] "platforms" ["plugins"] rfl (by simp) rfl⟩

end NgxScripts
